import Mathlib

/-!
UnitedNetworkPlugin: length-prefixed TCP framing, outgoing queue, teardown

A shallow embedding of `UnitedNetDriver.cpp`:

* `FTcpRecvRunnable::ProcessStream` / `FTcpRecvRunnable::Run` (receive side),
* `UUnitedNetDriver::EnqueueOutgoingPacket` / `FlushOutgoingSends` (send side),
* `UUnitedNetDriver::StopSocket` (teardown).

Bytes are `Fin 256`; `uint32` values are naturals kept below `2 ^ 32`; the
`int32` reading of a `uint32` is an explicit integer.  A `TArray<uint8>` is a
list of bytes, `Num()` its length (an `int32` in the engine, so a real array
never holds more than `2 ^ 31 - 1` elements).
-/

set_option autoImplicit false

namespace UnitedNet

/-! ## Bytes and 32-bit words -/

/-- One octet, the element type of `TArray<uint8>`. -/
abbrev uint8 := Fin 256

/-- Largest value of `int32`, the size type of `TArray`. -/
def MAX_int32 : Nat := 2147483647

/-- Byte number `k` (0 = least significant) of a word. -/
def byteOf (x k : Nat) : uint8 := ⟨x / 2 ^ (8 * k) % 256, Nat.mod_lt _ (by decide)⟩

/-- Reversal of the four bytes of a 32-bit word. -/
def bswap32 (x : Nat) : Nat :=
  (x % 256) * 2 ^ 24 + (x / 2 ^ 8 % 256) * 2 ^ 16 + (x / 2 ^ 16 % 256) * 2 ^ 8 + x / 2 ^ 24 % 256

/-- `htonl`: host to network order.  `le` says whether the host is little-endian;
on a big-endian host the function is the identity. -/
def htonl (le : Bool) (x : Nat) : Nat := if le then bswap32 x else x

/-- `ntohl`: network to host order, the same permutation as `htonl`. -/
def ntohl (le : Bool) (x : Nat) : Nat := if le then bswap32 x else x

/-- The four bytes that a `uint32` occupies in host memory, lowest address first:
what `(uint8*)&NetLen` points at. -/
def toMem (le : Bool) (x : Nat) : List uint8 :=
  if le then [byteOf x 0, byteOf x 1, byteOf x 2, byteOf x 3]
  else [byteOf x 3, byteOf x 2, byteOf x 1, byteOf x 0]

/-- The `uint32` obtained by `FMemory::Memcpy(&NetLen, Stream.GetData(), 4)`:
the first four bytes of the array read in host order.  Only called when four
bytes are present; missing bytes read as 0. -/
def fromMem (le : Bool) (m : List uint8) : Nat :=
  let b (i : Nat) : Nat := ((m.get? i).getD 0).val
  if le then b 0 + b 1 * 2 ^ 8 + b 2 * 2 ^ 16 + b 3 * 2 ^ 24
  else b 3 + b 2 * 2 ^ 8 + b 1 * 2 ^ 16 + b 0 * 2 ^ 24

/-- `static_cast<int32>` of a `uint32`. -/
def static_cast_int32 (u : Nat) : Int :=
  if u % 2 ^ 32 < 2 ^ 31 then ((u % 2 ^ 32 : Nat) : Int) else ((u % 2 ^ 32 : Nat) : Int) - 2 ^ 32

/-! ## Sender framing (`FlushOutgoingSends`, lines 258-262) -/

/-- The array `Framed` built for one queued buffer:
`NetLen = htonl(Buf.Num())`, then the four bytes of `NetLen`, then `Buf`. -/
def Framed (le : Bool) (Buf : List uint8) : List uint8 :=
  let NetLen := htonl le (Buf.length % 2 ^ 32)
  toMem le NetLen ++ Buf

/-! ## Receiver reassembly (`FTcpRecvRunnable::ProcessStream`) -/

/-- The reassembly members of `FTcpRecvRunnable`. -/
structure Reassembly where
  Stream : List uint8
  ExpectedSize : Nat
  deriving DecidableEq, Repr

/-- The state set up by the constructor: empty `Stream`, `ExpectedSize(0)`. -/
def Reassembly.init : Reassembly := ⟨[], 0⟩

/-- What one pass through the body of `while (true)` does. -/
inductive LoopStep where
  /-- One of the two `return` statements (line 76 or line 84). -/
  | ret (s : Reassembly)
  /-- Lines 86-97: a packet is copied out, posted to the game thread, and the loop goes on. -/
  | handoff (Packet : List uint8) (s : Reassembly)
  /-- Line 87 is reached with a count that is negative as `int32`:
  `Packet.Append` is asked for bytes that `Stream` does not hold. -/
  | badCount (Count : Int) (s : Reassembly)
  deriving DecidableEq, Repr

/-- Lines 74-82: read the length prefix when none is pending.
`none` is the `return` of line 76. -/
def readPrefix (le : Bool) (s : Reassembly) : Option Reassembly :=
  if s.ExpectedSize = 0 then
    if s.Stream.length < 4 then none
    else some ⟨s.Stream.drop 4, ntohl le (fromMem le s.Stream)⟩
  else some s

/-- Lines 84-97: wait for the payload, or copy it out and post it.
`Append` and `RemoveAt` take their count as `int32`. -/
def takePacket (s1 : Reassembly) : LoopStep :=
  if (s1.Stream.length : Int) < static_cast_int32 s1.ExpectedSize then .ret s1
  else
    let Count : Int := static_cast_int32 s1.ExpectedSize
    if Count < 0 then .badCount Count s1
    else .handoff (s1.Stream.take Count.toNat) ⟨s1.Stream.drop Count.toNat, 0⟩

/-- The body of the `while (true)` loop of `ProcessStream`. -/
def loopBody (le : Bool) (s : Reassembly) : LoopStep :=
  match readPrefix le s with
  | none => .ret s
  | some s1 => takePacket s1

/-- How a call of `ProcessStream` ends. -/
inductive Outcome where
  /-- The call returned after posting `handed` (in order), leaving state `s`. -/
  | returned (handed : List (List uint8)) (s : Reassembly)
  /-- After posting `handed`, the call reached `Packet.Append` with the negative count `Count`. -/
  | overrun (handed : List (List uint8)) (Count : Int)
  /-- The iteration budget of the model ran out (shown below never to happen). -/
  | outOfFuel
  deriving DecidableEq, Repr

/-- Put packets posted earlier in front of an outcome. -/
def Outcome.prepend (ps : List (List uint8)) : Outcome → Outcome
  | .returned h s => .returned (ps ++ h) s
  | .overrun h c => .overrun (ps ++ h) c
  | .outOfFuel => .outOfFuel

/-- The loop of `ProcessStream`, run for at most `fuel` passes. -/
def ProcessStreamLoop (le : Bool) : Nat → Reassembly → Outcome
  | 0, _ => .outOfFuel
  | fuel + 1, s =>
    match loopBody le s with
    | .ret s1 => .returned [] s1
    | .badCount c _ => .overrun [] c
    | .handoff p s1 => (ProcessStreamLoop le fuel s1).prepend [p]

/-- `FTcpRecvRunnable::ProcessStream`.  Every pass that does not end the call
clears a pending `ExpectedSize` or removes a four-byte prefix, so `Stream.Num() + 2`
passes suffice. -/
def ProcessStream (le : Bool) (s : Reassembly) : Outcome :=
  ProcessStreamLoop le (s.Stream.length + 2) s

/-- `Stream.Append(Buffer.GetData(), BytesRead); ProcessStream();` (lines 46-47). -/
def Feed (le : Bool) (s : Reassembly) (bytes : List uint8) : Outcome :=
  ProcessStream le ⟨s.Stream ++ bytes, s.ExpectedSize⟩

/-- Feeding a sequence of chunks, `Feed` after each one; stops at an overrun. -/
def FeedChunks (le : Bool) : Reassembly → List (List uint8) → Outcome
  | s, [] => .returned [] s
  | s, c :: cs =>
    match Feed le s c with
    | .returned h s1 => (FeedChunks le s1 cs).prepend h
    | o => o

/-- An outcome followed by one more `Feed` of `bytes`, when the first call returned. -/
def Outcome.thenFeed (le : Bool) (o : Outcome) (bytes : List uint8) : Outcome :=
  match o with
  | .returned h s1 => (Feed le s1 bytes).prepend h
  | .overrun h c => .overrun h c
  | .outOfFuel => .outOfFuel

/-- The body of `if (Socket->Recv(...))` in `Run` (lines 44-48) for one
successful read of `bytes`: nothing happens unless `BytesRead > 0`. -/
def OnRecv (le : Bool) (s : Reassembly) (bytes : List uint8) : Outcome :=
  if 0 < bytes.length then Feed le s bytes else .returned [] s

/-- Successive successful reads handled by `Run`, one `OnRecv` per read. -/
def OnRecvs (le : Bool) : Reassembly → List (List uint8) → Outcome
  | s, [] => .returned [] s
  | s, c :: cs =>
    match OnRecv le s c with
    | .returned h s1 => (OnRecvs le s1 cs).prepend h
    | o => o

/-! ## The receive loop (`FTcpRecvRunnable::Run`) -/

/-- Size of the local `Buffer` of `Run`; one `Recv` delivers at most this many bytes. -/
def BufferSize : Nat := 4096

/-- The members of `FTcpRecvRunnable` that `Run` reads or writes.
`Socket` records whether the pointer is non-null. -/
structure FTcpRecvRunnable where
  Socket : Bool
  bStop : Bool
  buf : Reassembly
  deriving DecidableEq, Repr

/-- `FTcpRecvRunnable::Stop`. -/
def FTcpRecvRunnable.Stop (r : FTcpRecvRunnable) : FTcpRecvRunnable := { r with bStop := true }

/-- Observable record of the `FSocket`: every buffer offered to `Send`, and the
bytes the socket accepted (what the peer will read), both in order. -/
structure FSocket where
  Offered : List (List uint8)
  Accepted : List uint8
  deriving DecidableEq, Repr

/-- `Socket->Send(Data, Count, BytesSent)`.  The platform socket decides how many of the
offered bytes it takes (`accept Data`, capped at the count offered); they are always a
leading fragment.  Returns the socket and `BytesSent`. -/
def FSocket.Send (accept : List uint8 → Nat) (sock : FSocket) (Data : List uint8) : FSocket × Nat :=
  let BytesSent := min (accept Data) Data.length
  (⟨sock.Offered ++ [Data], sock.Accepted ++ Data.take BytesSent⟩, BytesSent)

/-- The members of `UUnitedNetDriver` declared in `UnitedNetDriver.h`.
A null pointer is `none`; thread and runnable are identified by a handle. -/
structure UUnitedNetDriver where
  Socket : Option FSocket
  RecvThread : Option Nat
  RecvRunnable : Option Nat
  OutgoingPackets : List (List uint8)
  deriving DecidableEq, Repr

/-- The constructor `UUnitedNetDriver::UUnitedNetDriver`: three null pointers. -/
def UUnitedNetDriver.new : UUnitedNetDriver := ⟨none, none, none, []⟩

/-- `UUnitedNetDriver::EnqueueOutgoingPacket`: `OutgoingPackets.Add(Packet)`. -/
def EnqueueOutgoingPacket (d : UUnitedNetDriver) (Packet : List uint8) : UUnitedNetDriver :=
  { d with OutgoingPackets := d.OutgoingPackets ++ [Packet] }

/-- Several `EnqueueOutgoingPacket` calls in order. -/
def EnqueueAll (d : UUnitedNetDriver) (ps : List (List uint8)) : UUnitedNetDriver :=
  ps.foldl EnqueueOutgoingPacket d

/-- Lines 246-252 of `FlushOutgoingSends`: the value of `LocalCopy` and the driver when
the locked block is left, or `none` for the early `return` on an empty queue. -/
def takeLocalCopy (d : UUnitedNetDriver) : Option (List (List uint8) × UUnitedNetDriver) :=
  if d.OutgoingPackets.length = 0 then none
  else some (d.OutgoingPackets, { d with OutgoingPackets := [] })

/-- The value of the local `LocalCopy` when `FlushOutgoingSends` ends
(default-constructed, hence empty, on the early return). -/
def LocalCopy (d : UUnitedNetDriver) : List (List uint8) :=
  match takeLocalCopy d with
  | none => []
  | some (l, _) => l

/-- Lines 254-267: the `for` loop over `LocalCopy`.  With a null `Socket` the buffer is
skipped; otherwise it is framed and offered to `Send` once, `BytesSent` being ignored. -/
def sendLoop (le : Bool) (accept : List uint8 → Nat) :
    Option FSocket → List (List uint8) → Option FSocket
  | sock, [] => sock
  | none, _ :: rest => sendLoop le accept none rest
  | some sock, Buf :: rest =>
    sendLoop le accept (some (sock.Send accept (Framed le Buf)).1) rest

/-- `UUnitedNetDriver::FlushOutgoingSends`. -/
def FlushOutgoingSends (le : Bool) (accept : List uint8 → Nat) (d : UUnitedNetDriver) :
    UUnitedNetDriver :=
  match takeLocalCopy d with
  | none => d
  | some (l, d1) => { d1 with Socket := sendLoop le accept d1.Socket l }

/-- The calls `StopSocket` makes on the objects it owns. -/
inductive Action where
  /-- The call `RecvRunnable->Stop()`. -/
  | RunnableStop (r : Nat)
  /-- The call `RecvThread->Kill(bShouldWait)`: with `true` it returns once the thread has exited. -/
  | ThreadKill (t : Nat) (bShouldWait : Bool)
  /-- The statement `delete RecvThread`. -/
  | DeleteThread (t : Nat)
  /-- The statement `delete RecvRunnable`. -/
  | DeleteRunnable (r : Nat)
  /-- The call `Socket->Close()`. -/
  | SocketClose
  /-- The call `DestroySocket(Socket)` on the socket subsystem. -/
  | DestroySocket
  deriving DecidableEq, Repr

/-- `UUnitedNetDriver::StopSocket`: the calls made, in order, and the driver afterwards. -/
def StopSocket (d : UUnitedNetDriver) : List Action × UUnitedNetDriver :=
  let a1 : List Action :=
    match d.RecvRunnable with
    | some r => [.RunnableStop r]
    | none => []
  let (a2, d2) : List Action × UUnitedNetDriver :=
    match d.RecvThread with
    | some t => ([.ThreadKill t true, .DeleteThread t], { d with RecvThread := none })
    | none => ([], d)
  let (a3, d3) : List Action × UUnitedNetDriver :=
    match d2.RecvRunnable with
    | some r => ([.DeleteRunnable r], { d2 with RecvRunnable := none })
    | none => ([], d2)
  let (a4, d4) : List Action × UUnitedNetDriver :=
    match d3.Socket with
    | some _ => ([.SocketClose, .DestroySocket], { d3 with Socket := none })
    | none => ([], d3)
  (a1 ++ a2 ++ a3 ++ a4, d4)

/-! ## Arithmetic of the length prefix -/

theorem static_cast_int32_of_le {n : Nat} (h : n ≤ MAX_int32) : static_cast_int32 n = (n : Int) := by
  unfold MAX_int32 at h
  unfold static_cast_int32
  have h1 : n % 2 ^ 32 = n := Nat.mod_eq_of_lt (by omega)
  rw [h1, if_pos (by omega)]

theorem toMem_length (le : Bool) (x : Nat) : (toMem le x).length = 4 := by
  cases le <;> rfl

theorem fromMem_toMem (le : Bool) (y : Nat) (rest : List uint8) (h : y < 2 ^ 32) :
    fromMem le (toMem le y ++ rest) = y := by
  cases le
  · simp [fromMem, toMem, byteOf]
    omega
  · simp [fromMem, toMem, byteOf]
    omega

theorem bswap32_bytes (a b c d : Nat) (ha : a < 256) (hb : b < 256) (hc : c < 256) (hd : d < 256) :
    bswap32 (a * 2 ^ 24 + b * 2 ^ 16 + c * 2 ^ 8 + d) = d * 2 ^ 24 + c * 2 ^ 16 + b * 2 ^ 8 + a := by
  unfold bswap32
  omega

theorem bswap32_lt (x : Nat) : bswap32 x < 2 ^ 32 := by
  unfold bswap32
  omega

theorem bswap32_bswap32 (x : Nat) (h : x < 2 ^ 32) : bswap32 (bswap32 x) = x := by
  have hx : bswap32 x = (x % 256) * 2 ^ 24 + (x / 2 ^ 8 % 256) * 2 ^ 16 + (x / 2 ^ 16 % 256) * 2 ^ 8
      + x / 2 ^ 24 % 256 := rfl
  rw [hx, bswap32_bytes _ _ _ _ (Nat.mod_lt _ (by decide)) (Nat.mod_lt _ (by decide))
    (Nat.mod_lt _ (by decide)) (Nat.mod_lt _ (by decide))]
  clear hx
  simp only [Nat.reducePow]
  omega

theorem htonl_lt (le : Bool) (n : Nat) (h : n < 2 ^ 32) : htonl le n < 2 ^ 32 := by
  cases le
  · simpa [htonl] using h
  · simpa [htonl] using bswap32_lt n

theorem ntohl_htonl (le : Bool) (n : Nat) (h : n < 2 ^ 32) : ntohl le (htonl le n) = n := by
  cases le
  · simp [ntohl, htonl]
  · simpa [ntohl, htonl] using bswap32_bswap32 n h

theorem ntohl_fromMem_toMem_htonl (le : Bool) (n : Nat) (rest : List uint8) (h : n < 2 ^ 32) :
    ntohl le (fromMem le (toMem le (htonl le n) ++ rest)) = n := by
  rw [fromMem_toMem le _ rest (htonl_lt le n h), ntohl_htonl le n h]

/-! ## One pass of the loop -/

theorem takePacket_wait {n : Nat} (body : List uint8) (hn : n ≤ MAX_int32) (h : body.length < n) :
    takePacket ⟨body, n⟩ = .ret ⟨body, n⟩ := by
  unfold takePacket
  simp only [static_cast_int32_of_le hn]
  rw [if_pos (by exact_mod_cast h)]

theorem takePacket_ready {n : Nat} (body : List uint8) (hn : n ≤ MAX_int32) (h : n ≤ body.length) :
    takePacket ⟨body, n⟩ = .handoff (body.take n) ⟨body.drop n, 0⟩ := by
  unfold takePacket
  simp only [static_cast_int32_of_le hn]
  rw [if_neg (by omega), if_neg (by omega)]
  simp

theorem readPrefix_header (le : Bool) (n : Nat) (body : List uint8) (h : n < 2 ^ 32) :
    readPrefix le ⟨toMem le (htonl le n) ++ body, 0⟩ = some ⟨body, n⟩ := by
  unfold readPrefix
  have hl : ¬ (toMem le (htonl le n) ++ body).length < 4 := by
    simp [toMem_length]
  simp only [if_true, if_neg hl]
  rw [ntohl_fromMem_toMem_htonl le n body h, List.drop_left' (toMem_length le _)]

theorem Framed_eq (le : Bool) (P : List uint8) (hP : P.length ≤ MAX_int32) :
    Framed le P = toMem le (htonl le P.length) ++ P := by
  unfold MAX_int32 at hP
  unfold Framed
  have h1 : P.length % 2 ^ 32 = P.length := Nat.mod_eq_of_lt (by omega)
  simp only [h1]

theorem loopBody_Framed (le : Bool) (P rest : List uint8) (hP : P.length ≤ MAX_int32) :
    loopBody le ⟨Framed le P ++ rest, 0⟩ = .handoff P ⟨rest, 0⟩ := by
  have h32 : P.length < 2 ^ 32 := by unfold MAX_int32 at hP; omega
  unfold loopBody
  rw [Framed_eq le P hP, List.append_assoc, readPrefix_header le _ _ h32]
  simp only
  rw [takePacket_ready _ hP (by simp)]
  simp

theorem loopBody_handoff_measure (le : Bool) (s s1 : Reassembly) (p : List uint8)
    (h : loopBody le s = .handoff p s1) :
    s1.ExpectedSize = 0 ∧ s1.Stream.length ≤ s.Stream.length ∧
      (s.ExpectedSize = 0 → s1.Stream.length + 4 ≤ s.Stream.length) := by
  unfold loopBody readPrefix at h
  by_cases hE : s.ExpectedSize = 0
  · by_cases hl : s.Stream.length < 4
    · simp [hE, hl] at h
    · simp only [hE, if_true, if_neg hl, takePacket] at h
      split at h
      · cases h
      · split at h
        · cases h
        · cases h
          have h4 : (List.drop 4 s.Stream).length + 4 = s.Stream.length := by
            simp only [List.length_drop]; omega
          refine ⟨rfl, ?_, fun _ => ?_⟩
          · exact le_trans (by simp only [List.length_drop]; exact Nat.sub_le _ _) (by omega)
          · exact le_trans (Nat.add_le_add_right
              (by simp only [List.length_drop]; exact Nat.sub_le _ _) 4) (by omega)
  · simp only [if_neg hE, takePacket] at h
    split at h
    · cases h
    · split at h
      · cases h
      · cases h
        refine ⟨rfl, ?_, fun h0 => absurd h0 hE⟩
        simp only [List.length_drop]
        exact Nat.sub_le _ _

/-! ## The iteration budget is never exhausted -/

theorem ProcessStreamLoop_fuel (le : Bool) : ∀ (n m : Nat) (s : Reassembly),
    s.Stream.length + (if s.ExpectedSize = 0 then 0 else 1) < n →
    s.Stream.length + (if s.ExpectedSize = 0 then 0 else 1) < m →
    ProcessStreamLoop le n s = ProcessStreamLoop le m s := by
  intro n
  induction n with
  | zero => intro m s h; omega
  | succ n ih =>
    intro m s hn hm
    cases m with
    | zero => omega
    | succ m =>
      simp only [ProcessStreamLoop]
      cases hb : loopBody le s with
      | ret s1 => rfl
      | badCount c s1 => rfl
      | handoff p s1 =>
        obtain ⟨h0, h1, h2⟩ := loopBody_handoff_measure le s s1 p hb
        simp only
        rw [ih m s1]
        · rw [h0]; simp only [if_true]
          split at hn <;> omega
        · rw [h0]; simp only [if_true]
          split at hm <;> omega

/-- `ProcessStream` is its loop body followed by `ProcessStream` again: the budget of
the model plays no part. -/
theorem ProcessStream_unfold (le : Bool) (s : Reassembly) :
    ProcessStream le s =
      match loopBody le s with
      | .ret s1 => .returned [] s1
      | .badCount c _ => .overrun [] c
      | .handoff p s1 => (ProcessStream le s1).prepend [p] := by
  unfold ProcessStream
  show ProcessStreamLoop le ((s.Stream.length + 1) + 1) s = _
  rw [ProcessStreamLoop]
  cases hb : loopBody le s with
  | ret s1 => rfl
  | badCount c s1 => rfl
  | handoff p s1 =>
    obtain ⟨h0, h1, h2⟩ := loopBody_handoff_measure le s s1 p hb
    simp only
    rw [ProcessStreamLoop_fuel le (s.Stream.length + 1) (s1.Stream.length + 2) s1]
    · rw [h0]; simp only [if_true]; omega
    · rw [h0]; simp only [if_true]; omega

theorem ProcessStreamLoop_ne_outOfFuel (le : Bool) : ∀ (n : Nat) (s : Reassembly),
    s.Stream.length + (if s.ExpectedSize = 0 then 0 else 1) < n →
    ProcessStreamLoop le n s ≠ .outOfFuel := by
  intro n
  induction n with
  | zero => intro s h; omega
  | succ n ih =>
    intro s hn
    simp only [ProcessStreamLoop]
    cases hb : loopBody le s with
    | ret s1 => simp
    | badCount c s1 => simp
    | handoff p s1 =>
      obtain ⟨h0, h1, h2⟩ := loopBody_handoff_measure le s s1 p hb
      have hs1 : ProcessStreamLoop le n s1 ≠ .outOfFuel := by
        apply ih
        rw [h0]; simp only [if_true]
        split at hn <;> omega
      simp only
      cases hr : ProcessStreamLoop le n s1 with
      | returned h s2 => simp [Outcome.prepend]
      | overrun h c => simp [Outcome.prepend]
      | outOfFuel => exact absurd hr hs1

/-- `ProcessStream` always ends: it returns or reaches the bad `Append`. -/
theorem ProcessStream_ne_outOfFuel (le : Bool) (s : Reassembly) :
    ProcessStream le s ≠ .outOfFuel := by
  apply ProcessStreamLoop_ne_outOfFuel
  split <;> omega

theorem prepend_nil (o : Outcome) : o.prepend [] = o := by
  cases o <;> simp [Outcome.prepend]

theorem prepend_prepend (a b : List (List uint8)) (o : Outcome) :
    (o.prepend b).prepend a = o.prepend (a ++ b) := by
  cases o <;> simp [Outcome.prepend]

/-! ## Appending bytes behind a pass -/

theorem static_cast_int32_zero : static_cast_int32 0 = 0 := by
  decide

theorem loopBody_of_ne_zero (le : Bool) (s : Reassembly) (h : s.ExpectedSize ≠ 0) :
    loopBody le s = takePacket s := by
  simp [loopBody, readPrefix, h]

theorem loopBody_short (le : Bool) (s : Reassembly) (h : s.ExpectedSize = 0)
    (hl : s.Stream.length < 4) : loopBody le s = .ret s := by
  simp [loopBody, readPrefix, h, hl]

theorem loopBody_of_header (le : Bool) (s : Reassembly) (h : s.ExpectedSize = 0)
    (hl : 4 ≤ s.Stream.length) :
    loopBody le s = takePacket ⟨s.Stream.drop 4, ntohl le (fromMem le s.Stream)⟩ := by
  have hl2 : ¬ s.Stream.length < 4 := by omega
  simp [loopBody, readPrefix, h, hl2]

theorem fromMem_append (le : Bool) (m b : List uint8) (h : 4 ≤ m.length) :
    fromMem le (m ++ b) = fromMem le m := by
  match m, h with
  | m0 :: m1 :: m2 :: m3 :: rest, _ => simp [fromMem]

theorem takePacket_append (s1 : Reassembly) (b : List uint8) :
    match takePacket s1 with
    | .ret s2 => s2 = s1 ∧ s1.ExpectedSize ≠ 0
    | .handoff p s2 =>
        takePacket ⟨s1.Stream ++ b, s1.ExpectedSize⟩ = .handoff p ⟨s2.Stream ++ b, s2.ExpectedSize⟩
    | .badCount c s2 =>
        takePacket ⟨s1.Stream ++ b, s1.ExpectedSize⟩ = .badCount c ⟨s2.Stream ++ b, s2.ExpectedSize⟩ := by
  unfold takePacket
  by_cases h1 : (s1.Stream.length : Int) < static_cast_int32 s1.ExpectedSize
  · simp only [if_pos h1, true_and]
    intro h0
    rw [h0, static_cast_int32_zero] at h1
    omega
  · by_cases h2 : static_cast_int32 s1.ExpectedSize < 0
    · have h3 : ¬ (((s1.Stream ++ b).length : Nat) : Int) < static_cast_int32 s1.ExpectedSize := by
        omega
      simp only [if_neg h1, if_pos h2, if_neg h3]
    · have h3 : ¬ (((s1.Stream ++ b).length : Nat) : Int) < static_cast_int32 s1.ExpectedSize := by
        simp only [List.length_append]
        omega
      have h4 : (static_cast_int32 s1.ExpectedSize).toNat ≤ s1.Stream.length := by
        omega
      simp only [if_neg h1, if_neg h2, if_neg h3]
      rw [List.take_append_of_le_length h4, List.drop_append_of_le_length h4]

theorem loopBody_append (le : Bool) (s : Reassembly) (b : List uint8) :
    match loopBody le s with
    | .ret s1 =>
        loopBody le ⟨s.Stream ++ b, s.ExpectedSize⟩ = loopBody le ⟨s1.Stream ++ b, s1.ExpectedSize⟩
    | .handoff p s1 =>
        loopBody le ⟨s.Stream ++ b, s.ExpectedSize⟩ = .handoff p ⟨s1.Stream ++ b, s1.ExpectedSize⟩
    | .badCount c s1 =>
        loopBody le ⟨s.Stream ++ b, s.ExpectedSize⟩ = .badCount c ⟨s1.Stream ++ b, s1.ExpectedSize⟩ := by
  by_cases hE : s.ExpectedSize = 0
  · by_cases hl : s.Stream.length < 4
    · rw [loopBody_short le s hE hl]
    · have hl4 : 4 ≤ s.Stream.length := by omega
      have hp : loopBody le ⟨s.Stream ++ b, s.ExpectedSize⟩ =
          takePacket ⟨s.Stream.drop 4 ++ b, ntohl le (fromMem le s.Stream)⟩ := by
        rw [loopBody_of_header le ⟨s.Stream ++ b, s.ExpectedSize⟩ hE
          (by simp only [List.length_append]; omega)]
        simp only [fromMem_append le _ b hl4, List.drop_append_of_le_length hl4]
      rw [hp, loopBody_of_header le s hE hl4]
      have key := takePacket_append ⟨s.Stream.drop 4, ntohl le (fromMem le s.Stream)⟩ b
      cases ht : takePacket ⟨s.Stream.drop 4, ntohl le (fromMem le s.Stream)⟩ with
      | ret s2 =>
        rw [ht] at key
        obtain ⟨k1, k2⟩ := key
        subst k1
        exact (loopBody_of_ne_zero le
          ⟨s.Stream.drop 4 ++ b, ntohl le (fromMem le s.Stream)⟩ k2).symm
      | handoff p s2 =>
        rw [ht] at key
        exact key
      | badCount c s2 =>
        rw [ht] at key
        exact key
  · have hp : loopBody le ⟨s.Stream ++ b, s.ExpectedSize⟩ =
        takePacket ⟨s.Stream ++ b, s.ExpectedSize⟩ := loopBody_of_ne_zero le _ hE
    rw [hp, loopBody_of_ne_zero le s hE]
    have key := takePacket_append s b
    cases ht : takePacket s with
    | ret s2 =>
      rw [ht] at key
      obtain ⟨k1, k2⟩ := key
      subst k1
      exact (loopBody_of_ne_zero le ⟨s2.Stream ++ b, s2.ExpectedSize⟩ k2).symm
    | handoff p s2 =>
      rw [ht] at key
      exact key
    | badCount c s2 =>
      rw [ht] at key
      exact key

theorem thenFeed_prepend (le : Bool) (a : List (List uint8)) (o : Outcome) (b : List uint8) :
    (o.prepend a).thenFeed le b = (o.thenFeed le b).prepend a := by
  cases o with
  | returned h s =>
    show (Feed le s b).prepend (a ++ h) = ((Feed le s b).prepend h).prepend a
    rw [prepend_prepend]
  | overrun h c => rfl
  | outOfFuel => rfl

theorem ProcessStream_append_aux (le : Bool) (b : List uint8) : ∀ (n : Nat) (s : Reassembly),
    s.Stream.length + (if s.ExpectedSize = 0 then 0 else 1) < n →
    ProcessStream le ⟨s.Stream ++ b, s.ExpectedSize⟩ = (ProcessStream le s).thenFeed le b := by
  intro n
  induction n with
  | zero => intro s h; omega
  | succ n ih =>
    intro s hn
    have key := loopBody_append le s b
    rw [ProcessStream_unfold le s, ProcessStream_unfold le ⟨s.Stream ++ b, s.ExpectedSize⟩]
    cases hb : loopBody le s with
    | ret s1 =>
      rw [hb] at key
      simp only at key
      rw [key]
      simp only [Outcome.thenFeed, prepend_nil, Feed]
      rw [ProcessStream_unfold le ⟨s1.Stream ++ b, s1.ExpectedSize⟩]
    | badCount c s1 =>
      rw [hb] at key
      simp only at key
      rw [key]
      simp only [Outcome.thenFeed]
    | handoff p s1 =>
      rw [hb] at key
      simp only at key
      rw [key]
      obtain ⟨h0, h1, h2⟩ := loopBody_handoff_measure le s s1 p hb
      simp only
      rw [ih s1 (by rw [h0]; simp only [if_true]; split at hn <;> omega), thenFeed_prepend]

/-- Bytes appended before a call of `ProcessStream` can as well be appended after it and
processed by a second call. -/
theorem ProcessStream_append (le : Bool) (s : Reassembly) (b : List uint8) :
    ProcessStream le ⟨s.Stream ++ b, s.ExpectedSize⟩ = (ProcessStream le s).thenFeed le b :=
  ProcessStream_append_aux le b _ s (Nat.lt_succ_self _)

theorem Feed_append (le : Bool) (s : Reassembly) (a b : List uint8) :
    Feed le s (a ++ b) = (Feed le s a).thenFeed le b := by
  unfold Feed
  rw [← List.append_assoc]
  exact ProcessStream_append le ⟨s.Stream ++ a, s.ExpectedSize⟩ b

theorem Feed_nil (le : Bool) (s : Reassembly) : Feed le s [] = ProcessStream le s := by
  unfold Feed
  rw [List.append_nil]

/-- A state in which `ProcessStream` has returned is one it leaves alone. -/
theorem ProcessStream_returned_idle (le : Bool) (s s1 : Reassembly) (h : List (List uint8))
    (hr : ProcessStream le s = .returned h s1) : ProcessStream le s1 = .returned [] s1 := by
  have key := ProcessStream_append le s []
  rw [List.append_nil, hr] at key
  simp only [Outcome.thenFeed, Feed_nil] at key
  cases hs : ProcessStream le s1 with
  | returned h2 s2 =>
    rw [hs] at key
    simp only [Outcome.prepend, Outcome.returned.injEq] at key
    obtain ⟨k1, k2⟩ := key
    have : h2 = [] := by simpa using k1
    rw [this, ← k2]
  | overrun h2 c =>
    rw [hs] at key
    simp [Outcome.prepend] at key
  | outOfFuel => exact absurd hs (ProcessStream_ne_outOfFuel le s1)

theorem FeedChunks_eq_Feed (le : Bool) : ∀ (cs : List (List uint8)) (s : Reassembly),
    ProcessStream le s = .returned [] s → FeedChunks le s cs = Feed le s cs.flatten := by
  intro cs
  induction cs with
  | nil =>
    intro s hs
    simp only [FeedChunks, List.flatten_nil, Feed_nil, hs]
  | cons c cs ih =>
    intro s _
    rw [List.flatten_cons, Feed_append]
    simp only [FeedChunks]
    cases hf : Feed le s c with
    | returned h s1 =>
      have hidle : ProcessStream le s1 = .returned [] s1 :=
        ProcessStream_returned_idle le _ s1 h hf
      simp only [Outcome.thenFeed, ih s1 hidle]
    | overrun h c => simp only [Outcome.thenFeed]
    | outOfFuel => simp only [Outcome.thenFeed]

theorem OnRecv_eq_Feed (le : Bool) (s : Reassembly) (c : List uint8)
    (hs : ProcessStream le s = .returned [] s) : OnRecv le s c = Feed le s c := by
  unfold OnRecv
  cases c with
  | nil => simp [Feed_nil, hs]
  | cons x xs => simp

theorem OnRecvs_eq_FeedChunks (le : Bool) : ∀ (cs : List (List uint8)) (s : Reassembly),
    ProcessStream le s = .returned [] s → OnRecvs le s cs = FeedChunks le s cs := by
  intro cs
  induction cs with
  | nil => intro s _; rfl
  | cons c cs ih =>
    intro s hs
    simp only [OnRecvs, FeedChunks, OnRecv_eq_Feed le s c hs]
    cases hf : Feed le s c with
    | returned h s1 =>
      simp only [ih s1 (ProcessStream_returned_idle le _ s1 h hf)]
    | overrun h c => rfl
    | outOfFuel => rfl

theorem ProcessStream_init (le : Bool) :
    ProcessStream le Reassembly.init = .returned [] Reassembly.init := by
  cases le <;> decide

/-- A run of whole frames at the head of `Stream` is handed off frame by frame. -/
theorem ProcessStream_frames (le : Bool) : ∀ (ps : List (List uint8)) (rest : List uint8),
    (∀ p ∈ ps, p.length ≤ MAX_int32) →
    ProcessStream le ⟨(ps.map (Framed le)).flatten ++ rest, 0⟩
      = (ProcessStream le ⟨rest, 0⟩).prepend ps := by
  intro ps
  induction ps with
  | nil => intro rest _; simp [prepend_nil]
  | cons p ps ih =>
    intro rest hps
    rw [List.map_cons, List.flatten_cons, List.append_assoc, ProcessStream_unfold,
      loopBody_Framed le p _ (hps p (List.mem_cons_self _ _))]
    simp only
    rw [ih rest (fun q hq => hps q (List.mem_cons_of_mem _ hq)), prepend_prepend]
    rfl

theorem Feed_frames (le : Bool) (ps : List (List uint8)) (hps : ∀ p ∈ ps, p.length ≤ MAX_int32) :
    Feed le Reassembly.init (ps.map (Framed le)).flatten = .returned ps Reassembly.init := by
  have h := ProcessStream_frames le ps [] hps
  have h0 : ProcessStream le ⟨[], 0⟩ = .returned [] Reassembly.init := ProcessStream_init le
  rw [h0, List.append_nil] at h
  unfold Feed
  simpa [Reassembly.init, Outcome.prepend] using h

theorem Feed_Framed (le : Bool) (P : List uint8) (hP : P.length ≤ MAX_int32) :
    Feed le Reassembly.init (Framed le P) = .returned [P] Reassembly.init := by
  have h := Feed_frames le [P] (by simpa using hP)
  simpa using h

theorem Framed_length (le : Bool) (P : List uint8) : (Framed le P).length = 4 + P.length := by
  simp [Framed, toMem_length]

/-- A proper leading part of one frame is kept and nothing is handed off. -/
theorem ProcessStream_proper_part (le : Bool) (P : List uint8) (k : Nat) (hP : P.length ≤ MAX_int32)
    (hk : k < (Framed le P).length) :
    ProcessStream le ⟨(Framed le P).take k, 0⟩ =
      .returned [] (if k < 4 then ⟨(Framed le P).take k, 0⟩ else ⟨P.take (k - 4), P.length⟩) := by
  rw [Framed_length] at hk
  have h32 : P.length < 2 ^ 32 := by unfold MAX_int32 at hP; omega
  by_cases h4 : k < 4
  · rw [if_pos h4, ProcessStream_unfold, loopBody_short le _ rfl]
    simp only [List.length_take, Framed_length]
    omega
  · rw [if_neg h4, ProcessStream_unfold]
    have ht : (Framed le P).take k = toMem le (htonl le P.length) ++ P.take (k - 4) := by
      rw [Framed_eq le P hP, List.take_append_eq_append_take, toMem_length,
        List.take_of_length_le (by rw [toMem_length]; omega)]
    rw [ht]
    unfold loopBody
    rw [readPrefix_header le _ _ h32]
    simp only
    rw [takePacket_wait _ hP (by simp only [List.length_take]; omega)]

/-! ## Claims on the frame codec -/

/-- C1. Framing round-trip: from the empty reassembly state, appending the bytes that
`FlushOutgoingSends` builds for a payload `P` (the empty one included) and running
`ProcessStream` hands off exactly `[P]` and leaves the state empty again.  `P` is any
`TArray<uint8>`, whose `Num()` is an `int32`. -/
theorem framing_round_trip (le : Bool) (P : List uint8) (hP : P.length ≤ MAX_int32) :
    Feed le Reassembly.init (Framed le P) = .returned [P] Reassembly.init :=
  Feed_Framed le P hP

theorem framing_round_trip_witness :
    ([] : List uint8).length ≤ MAX_int32 ∧
      Feed true Reassembly.init (Framed true []) = .returned [[]] Reassembly.init :=
  ⟨by decide, framing_round_trip true [] (by decide)⟩

/-- C2. Wire format: on either kind of host, the array `Framed` built for a payload `P` has
length `4 + |P|`, its first four bytes are the big-endian digits of `|P|` as a `uint32`, and
the bytes after them are exactly `P`. -/
theorem framed_wire_format (le : Bool) (P : List uint8) :
    (Framed le P).length = 4 + P.length ∧
    (Framed le P).drop 4 = P ∧
    ∃ b0 b1 b2 b3 : uint8,
      Framed le P = b0 :: b1 :: b2 :: b3 :: P ∧
      b0.val * 2 ^ 24 + b1.val * 2 ^ 16 + b2.val * 2 ^ 8 + b3.val = P.length % 2 ^ 32 := by
  refine ⟨Framed_length le P, ?_, ?_⟩
  · unfold Framed
    exact List.drop_left' (toMem_length le _)
  · have hlt : P.length % 2 ^ 32 < 2 ^ 32 := Nat.mod_lt _ (by decide)
    cases le
    · refine ⟨byteOf (P.length % 2 ^ 32) 3, byteOf (P.length % 2 ^ 32) 2,
        byteOf (P.length % 2 ^ 32) 1, byteOf (P.length % 2 ^ 32) 0, ?_, ?_⟩
      · simp [Framed, htonl, toMem]
      · simp only [byteOf]
        omega
    · have hb := bswap32_lt (P.length % 2 ^ 32)
      have hbb := bswap32_bswap32 (P.length % 2 ^ 32) hlt
      refine ⟨byteOf (bswap32 (P.length % 2 ^ 32)) 0, byteOf (bswap32 (P.length % 2 ^ 32)) 1,
        byteOf (bswap32 (P.length % 2 ^ 32)) 2, byteOf (bswap32 (P.length % 2 ^ 32)) 3, ?_, ?_⟩
      · simp [Framed, htonl, toMem]
      · generalize bswap32 (P.length % 2 ^ 32) = y at hb hbb
        rw [← hbb]
        simp only [byteOf, bswap32]
        simp only [Nat.reducePow, Nat.reduceMul]
        omega

/-- C3. Incremental feed equivalence: however the bytes of the frame of `P` are cut into
chunks (empty chunks and cuts inside the prefix included), appending the chunks one at a
time with `ProcessStream` after each gives the same hand-offs and the same final state as
appending the whole frame and running `ProcessStream` once; so does `Run`, which skips
`ProcessStream` for a read of 0 bytes. -/
theorem incremental_feed_equivalence (le : Bool) (P : List uint8) (cs : List (List uint8))
    (hsplit : cs.flatten = Framed le P) :
    FeedChunks le Reassembly.init cs = Feed le Reassembly.init (Framed le P) ∧
    OnRecvs le Reassembly.init cs = Feed le Reassembly.init (Framed le P) := by
  have h := FeedChunks_eq_Feed le cs Reassembly.init (ProcessStream_init le)
  rw [hsplit] at h
  exact ⟨h, by rw [OnRecvs_eq_FeedChunks le cs _ (ProcessStream_init le), h]⟩

theorem incremental_feed_equivalence_witness :
    ([[0], [0, 0], [], [2, 5], [6]] : List (List uint8)).flatten = Framed true [5, 6] ∧
    (FeedChunks true Reassembly.init [[0], [0, 0], [], [2, 5], [6]]
        = Feed true Reassembly.init (Framed true [5, 6]) ∧
      OnRecvs true Reassembly.init [[0], [0, 0], [], [2, 5], [6]]
        = Feed true Reassembly.init (Framed true [5, 6])) :=
  ⟨by decide, incremental_feed_equivalence true [5, 6] [[0], [0, 0], [], [2, 5], [6]] (by decide)⟩

/-- C4. Multi-frame ordering: from the empty reassembly state, appending the frames of
`P1`, `P2`, `P3` back to back and running `ProcessStream` once hands off exactly
`[P1, P2, P3]` in that order (for non-empty payloads, and for empty ones as well). -/
theorem multi_frame_ordering (le : Bool) (P1 P2 P3 : List uint8)
    (h1 : P1.length ≤ MAX_int32) (h2 : P2.length ≤ MAX_int32) (h3 : P3.length ≤ MAX_int32) :
    Feed le Reassembly.init (Framed le P1 ++ Framed le P2 ++ Framed le P3)
      = .returned [P1, P2, P3] Reassembly.init := by
  have h := Feed_frames le [P1, P2, P3] (by
    intro p hp
    simp only [List.mem_cons, List.mem_singleton, List.not_mem_nil, or_false] at hp
    rcases hp with rfl | rfl | rfl <;> assumption)
  simpa [List.append_assoc] using h

theorem multi_frame_ordering_witness :
    ([1] : List uint8).length ≤ MAX_int32 ∧ ([2, 3] : List uint8).length ≤ MAX_int32 ∧
      ([4, 5, 6] : List uint8).length ≤ MAX_int32 ∧
      Feed false Reassembly.init (Framed false [1] ++ Framed false [2, 3] ++ Framed false [4, 5, 6])
        = .returned [[1], [2, 3], [4, 5, 6]] Reassembly.init :=
  ⟨by decide, by decide, by decide,
    multi_frame_ordering false [1] [2, 3] [4, 5, 6] (by decide) (by decide) (by decide)⟩

/-- C8. Partial trailing frame: from the empty reassembly state, the frame of `P1` followed by
the first half of the frame of `P2` hands off exactly `[P1]`; what is left is the part of the
second frame received so far and nothing else (its bytes still in `Stream` when fewer than
four came, otherwise the decoded prefix in `ExpectedSize` and the payload bytes received in
`Stream`).  Feeding the rest of the frame of `P2` then hands off exactly `[P2]` and leaves
the state empty. -/
theorem partial_trailing_frame (le : Bool) (P1 P2 : List uint8)
    (h1 : P1.length ≤ MAX_int32) (h2 : P2.length ≤ MAX_int32) :
    Feed le Reassembly.init (Framed le P1 ++ (Framed le P2).take ((Framed le P2).length / 2))
      = .returned [P1]
          (if (Framed le P2).length / 2 < 4
            then ⟨(Framed le P2).take ((Framed le P2).length / 2), 0⟩
            else ⟨P2.take ((Framed le P2).length / 2 - 4), P2.length⟩) ∧
    Feed le
        (if (Framed le P2).length / 2 < 4
          then ⟨(Framed le P2).take ((Framed le P2).length / 2), 0⟩
          else ⟨P2.take ((Framed le P2).length / 2 - 4), P2.length⟩)
        ((Framed le P2).drop ((Framed le P2).length / 2))
      = .returned [P2] Reassembly.init := by
  have hk : (Framed le P2).length / 2 < (Framed le P2).length := by
    rw [Framed_length]; omega
  generalize (Framed le P2).length / 2 = k at hk ⊢
  have hpart := ProcessStream_proper_part le P2 k h2 hk
  have hfirst : Feed le Reassembly.init (Framed le P1 ++ (Framed le P2).take k)
      = .returned [P1]
          (if k < 4 then ⟨(Framed le P2).take k, 0⟩ else ⟨P2.take (k - 4), P2.length⟩) := by
    have h := ProcessStream_frames le [P1] ((Framed le P2).take k) (by simpa using h1)
    rw [hpart] at h
    unfold Feed
    simpa [Reassembly.init, Outcome.prepend] using h
  refine ⟨hfirst, ?_⟩
  have hwhole := Feed_append le Reassembly.init ((Framed le P2).take k) ((Framed le P2).drop k)
  rw [List.take_append_drop, Feed_Framed le P2 h2] at hwhole
  have hhalf : Feed le Reassembly.init ((Framed le P2).take k)
      = .returned []
          (if k < 4 then ⟨(Framed le P2).take k, 0⟩ else ⟨P2.take (k - 4), P2.length⟩) := by
    unfold Feed
    simpa [Reassembly.init] using hpart
  rw [hhalf] at hwhole
  simp only [Outcome.thenFeed, prepend_nil] at hwhole
  exact hwhole.symm

theorem partial_trailing_frame_witness :
    ([9] : List uint8).length ≤ MAX_int32 ∧ ([1, 2, 3, 4, 5, 6] : List uint8).length ≤ MAX_int32 ∧
    (Feed true Reassembly.init
        (Framed true [9] ++ (Framed true [1, 2, 3, 4, 5, 6]).take
          ((Framed true [1, 2, 3, 4, 5, 6]).length / 2))
      = .returned [[9]]
          (if (Framed true [1, 2, 3, 4, 5, 6]).length / 2 < 4
            then ⟨(Framed true [1, 2, 3, 4, 5, 6]).take
              ((Framed true [1, 2, 3, 4, 5, 6]).length / 2), 0⟩
            else ⟨([1, 2, 3, 4, 5, 6] : List uint8).take
              ((Framed true [1, 2, 3, 4, 5, 6]).length / 2 - 4),
              ([1, 2, 3, 4, 5, 6] : List uint8).length⟩) ∧
    Feed true
        (if (Framed true [1, 2, 3, 4, 5, 6]).length / 2 < 4
          then ⟨(Framed true [1, 2, 3, 4, 5, 6]).take
            ((Framed true [1, 2, 3, 4, 5, 6]).length / 2), 0⟩
          else ⟨([1, 2, 3, 4, 5, 6] : List uint8).take
            ((Framed true [1, 2, 3, 4, 5, 6]).length / 2 - 4),
            ([1, 2, 3, 4, 5, 6] : List uint8).length⟩)
        ((Framed true [1, 2, 3, 4, 5, 6]).drop ((Framed true [1, 2, 3, 4, 5, 6]).length / 2))
      = .returned [[1, 2, 3, 4, 5, 6]] Reassembly.init) :=
  ⟨by decide, by decide, partial_trailing_frame true [9] [1, 2, 3, 4, 5, 6] (by decide) (by decide)⟩

/-! ## No early delivery -/

/-- For a declared length within `int32`, nothing is handed off while fewer payload bytes
than declared have arrived: the prefix is decoded and the bytes are kept. -/
theorem Feed_waits_int32 (le : Bool) (L : Nat) (body : List uint8) (hL : L ≤ MAX_int32)
    (hb : body.length < L) :
    Feed le Reassembly.init (toMem le (htonl le L) ++ body) = .returned [] ⟨body, L⟩ := by
  have h32 : L < 2 ^ 32 := by unfold MAX_int32 at hL; omega
  unfold Feed
  simp only [Reassembly.init, List.nil_append]
  rw [ProcessStream_unfold]
  unfold loopBody
  rw [readPrefix_header le _ _ h32]
  simp only
  rw [takePacket_wait _ hL hb]

/-- For a declared length within `int32`, once that many payload bytes are present the
packet handed off is exactly those bytes, and processing goes on with what follows. -/
theorem Feed_delivers_int32 (le : Bool) (L : Nat) (body : List uint8) (hL : L ≤ MAX_int32)
    (hb : L ≤ body.length) :
    Feed le Reassembly.init (toMem le (htonl le L) ++ body)
      = (ProcessStream le ⟨body.drop L, 0⟩).prepend [body.take L] := by
  have h32 : L < 2 ^ 32 := by unfold MAX_int32 at hL; omega
  unfold Feed
  simp only [Reassembly.init, List.nil_append]
  rw [ProcessStream_unfold]
  unfold loopBody
  rw [readPrefix_header le _ _ h32]
  simp only
  rw [takePacket_ready _ hL hb]

/-- C7 (failing input). A prefix declaring `2 ^ 31` bytes, with no payload byte received:
the test of line 84 compares `Stream.Num()` with the length read as `int32`, which is
negative, so the call does not return and reaches `Packet.Append` on the empty `Stream`
with that count. -/
theorem early_delivery_large_prefix (le : Bool) :
    fromMem le (toMem le (htonl le (2 ^ 31))) = htonl le (2 ^ 31) ∧
    ntohl le (htonl le (2 ^ 31)) = 2 ^ 31 ∧
    loopBody le ⟨toMem le (htonl le (2 ^ 31)), 0⟩ = .badCount (-2147483648) ⟨[], 2147483648⟩ ∧
    Feed le Reassembly.init (toMem le (htonl le (2 ^ 31))) = .overrun [] (-2147483648) ∧
    toMem le (htonl le (2 ^ 31)) = [128, 0, 0, 0] := by
  cases le <;> decide

/-! ## Claims on the outgoing queue and the flush -/

theorem EnqueueAll_eq (ps : List (List uint8)) : ∀ d : UUnitedNetDriver,
    EnqueueAll d ps = { d with OutgoingPackets := d.OutgoingPackets ++ ps } := by
  induction ps with
  | nil => intro d; simp [EnqueueAll]
  | cons p ps ih =>
    intro d
    have h := ih (EnqueueOutgoingPacket d p)
    simp only [EnqueueAll, List.foldl_cons] at h ⊢
    rw [h]
    simp [EnqueueOutgoingPacket]

theorem sendLoop_none (le : Bool) (accept : List uint8 → Nat) (l : List (List uint8)) :
    sendLoop le accept none l = none := by
  induction l with
  | nil => rfl
  | cons p l ih => simpa [sendLoop] using ih

theorem sendLoop_Offered (le : Bool) (accept : List uint8 → Nat) (l : List (List uint8)) :
    ∀ sock : FSocket, (sendLoop le accept (some sock) l).map FSocket.Offered
      = some (sock.Offered ++ l.map (Framed le)) := by
  induction l with
  | nil => intro sock; simp [sendLoop]
  | cons p l ih =>
    intro sock
    simp only [sendLoop, ih, FSocket.Send, List.map_cons, List.append_assoc, List.singleton_append]

/-- With a socket that takes every byte it is offered, one flush puts the frames of the
queued payloads on the wire back to back. -/
theorem sendLoop_accept_all (le : Bool) (l : List (List uint8)) :
    ∀ sock : FSocket, (sendLoop le List.length (some sock) l).map FSocket.Accepted
      = some (sock.Accepted ++ (l.map (Framed le)).flatten) := by
  induction l with
  | nil => intro sock; simp [sendLoop]
  | cons p l ih =>
    intro sock
    simp only [sendLoop, ih, FSocket.Send, List.map_cons, List.flatten_cons, List.append_assoc,
      Nat.min_self, List.take_length]

/-- C5 (failing input). Queue `["abc", "de"]`, socket taking at most 3 bytes per `Send`:
`FlushOutgoingSends` offers each frame once and moves on, so the socket has accepted
`00 00 00 00 00 00` and the peer decodes one empty packet, with two bytes left over. -/
theorem partial_send_truncates (le : Bool) :
    (FlushOutgoingSends le (fun _ => 3) ⟨some ⟨[], []⟩, none, none, [[97, 98, 99], [100, 101]]⟩).Socket
      = some ⟨[[0, 0, 0, 3, 97, 98, 99], [0, 0, 0, 2, 100, 101]], [0, 0, 0, 0, 0, 0]⟩ ∧
    Feed le Reassembly.init [0, 0, 0, 0, 0, 0] = .returned [[]] ⟨[0, 0], 0⟩ ∧
    Framed le [97, 98, 99] ++ Framed le [100, 101]
      = [0, 0, 0, 3, 97, 98, 99, 0, 0, 0, 2, 100, 101] := by
  cases le <;> decide

/-- C6. Outgoing queue, FIFO and full drain: after `EnqueueOutgoingPacket` of `p1 .. pn` on an
empty queue, the next `FlushOutgoingSends` takes exactly `[p1, .., pn]` as `LocalCopy`, leaves
`OutgoingPackets` empty, and with a socket present offers their frames to `Send` in that
order; a flush of an empty queue takes nothing and leaves the driver, socket included, as
it was. -/
theorem queue_fifo_full_drain (le : Bool) (accept : List uint8 → Nat)
    (sock : Option FSocket) (t r : Option Nat) (sk : FSocket) (ps : List (List uint8)) :
    LocalCopy (EnqueueAll ⟨sock, t, r, []⟩ ps) = ps ∧
    (FlushOutgoingSends le accept (EnqueueAll ⟨sock, t, r, []⟩ ps)).OutgoingPackets = [] ∧
    (FlushOutgoingSends le accept (EnqueueAll ⟨some sk, t, r, []⟩ ps)).Socket.map FSocket.Offered
      = some (sk.Offered ++ ps.map (Framed le)) ∧
    LocalCopy ⟨sock, t, r, []⟩ = [] ∧
    FlushOutgoingSends le accept ⟨sock, t, r, []⟩ = ⟨sock, t, r, []⟩ := by
  simp only [EnqueueAll_eq, List.nil_append]
  refine ⟨?_, ?_, ?_, rfl, rfl⟩
  · cases ps <;> simp [LocalCopy, takeLocalCopy]
  · cases ps <;> simp [FlushOutgoingSends, takeLocalCopy]
  · cases ps with
    | nil => simp [FlushOutgoingSends, takeLocalCopy]
    | cons p ps =>
      simp only [FlushOutgoingSends, takeLocalCopy, List.length_cons, Nat.add_one_ne_zero,
        if_false]
      exact sendLoop_Offered le accept (p :: ps) sk

/-! ## Teardown -/

/-- C9. Idempotent teardown: from any driver state a second `StopSocket` makes no call at all
and leaves the state of the first, in which `Socket`, `RecvThread` and `RecvRunnable` are
null; on a driver whose three pointers are null `StopSocket` makes no call; on a started
driver the calls are, in order: stop the runnable, kill the thread waiting for it to exit,
delete both, then close and destroy the socket. -/
theorem stop_socket_idempotent (d : UUnitedNetDriver) (q : List (List uint8))
    (sk : FSocket) (t r : Nat) :
    StopSocket (StopSocket d).2 = ([], (StopSocket d).2) ∧
    (StopSocket d).2 = ⟨none, none, none, d.OutgoingPackets⟩ ∧
    StopSocket ⟨none, none, none, q⟩ = ([], ⟨none, none, none, q⟩) ∧
    (StopSocket ⟨some sk, some t, some r, q⟩).1
      = [.RunnableStop r, .ThreadKill t true, .DeleteThread t, .DeleteRunnable r,
          .SocketClose, .DestroySocket] := by
  rcases d with ⟨_ | s0, _ | t0, _ | r0, q0⟩ <;> exact ⟨rfl, rfl, rfl, rfl⟩

/-! ## The receive loop on a failed or empty read -/

end UnitedNet
